import Mathlib

/-!
Verification development for the FX backtesting engine
(`strategies.py`, `backtest.py`, `ma_montecarlo.py`).

Series are modelled as `List ℚ` (bar-aligned columns) or as functions
`ℕ → Option ℚ` (a pandas column: `none` is NaN / an undefined warm-up slot).
`np.log` is modelled by an arbitrary parameter `lg : ℚ → ℚ`, quantified in
every theorem that mentions it.
-/

/-! ## numpy primitives on lists -/

/-- Maximum of a list of rationals (junk value 0 on `[]`; every use below
guards against the empty list, as `np.argmax` raises on an empty input). -/
def maxQ : List ℚ → ℚ
  | [] => 0
  | [x] => x
  | x :: y :: t => max x (maxQ (y :: t))

/-- `np.argmax`: position of the first occurrence of the maximum.
Junk value 0 on `[]` (numpy raises there; callers check emptiness first). -/
def argmaxQ : List ℚ → ℕ
  | [] => 0
  | [_] => 0
  | x :: y :: t => if maxQ (y :: t) ≤ x then 0 else argmaxQ (y :: t) + 1

/-- Minimum of a list of rationals (junk value 0 on `[]`). -/
def minQ : List ℚ → ℚ
  | [] => 0
  | [x] => x
  | x :: y :: t => min x (minQ (y :: t))

/-- `np.argmin`: position of the first occurrence of the minimum. -/
def argminQ : List ℚ → ℕ
  | [] => 0
  | [_] => 0
  | x :: y :: t => if x ≤ minQ (y :: t) then 0 else argminQ (y :: t) + 1

/-- Helper for `np.maximum.accumulate`: running maximum with carry `c`. -/
def maxAccumFrom (c : ℚ) : List ℚ → List ℚ
  | [] => []
  | x :: xs => max c x :: maxAccumFrom (max c x) xs

/-- `np.maximum.accumulate`: elementwise running maximum. -/
def maxAccum : List ℚ → List ℚ
  | [] => []
  | x :: xs => x :: maxAccumFrom x xs

/-! ## pandas column primitives -/

/-- A list viewed as a pandas column: `none` beyond the end. -/
def listO (l : List ℚ) : ℕ → Option ℚ := fun t => l.get? t

/-- Elementwise `<` on possibly-NaN values: any comparison with NaN is False,
exactly as in pandas. -/
def oLt (a b : Option ℚ) : Bool :=
  match a, b with
  | some x, some y => decide (x < y)
  | _, _ => false

/-- Elementwise `>` on possibly-NaN values (False when either side is NaN). -/
def oGt (a b : Option ℚ) : Bool :=
  match a, b with
  | some x, some y => decide (y < x)
  | _, _ => false

/-- `Series.shift(1)`: previous bar's value, NaN at the first bar. -/
def prevO (f : ℕ → Option ℚ) : ℕ → Option ℚ
  | 0 => none
  | t + 1 => f t

/-- Trailing window of width `p` ending at bar `t` (values at `t-p+1 .. t`);
`none` while the window is incomplete or when it contains a NaN, matching
`Series.rolling(window=p)` with its default `min_periods`. -/
def windowO (f : ℕ → Option ℚ) (p t : ℕ) : Option (List ℚ) :=
  if p ≤ t + 1 then
    let w := (List.range p).map fun i => f (t - i)
    if w.all Option.isSome then some (w.filterMap id) else none
  else none

/-- `Series.rolling(window=p).mean()`. -/
def rollingMean (f : ℕ → Option ℚ) (p : ℕ) : ℕ → Option ℚ :=
  fun t => (windowO f p t).map fun w => w.sum / (p : ℚ)

/-- `Series.rolling(window=p).min()`. -/
def rollingMin (f : ℕ → Option ℚ) (p : ℕ) : ℕ → Option ℚ :=
  fun t => (windowO f p t).map minQ

/-- `Series.rolling(window=p).max()`. -/
def rollingMax (f : ℕ → Option ℚ) (p : ℕ) : ℕ → Option ℚ :=
  fun t => (windowO f p t).map maxQ

/-! ## Indicator library (strategies.py lines 13-30) -/

/-- `sma(data, period)` = `data.rolling(window=period).mean()`
(strategies.py line 20). -/
def sma (close : List ℚ) (p : ℕ) : ℕ → Option ℚ :=
  rollingMean (listO close) p

/-- α = 2/(span+1), the decay of `Series.ewm(span=period)`. -/
def emaAlpha (p : ℕ) : ℚ := 2 / ((p : ℚ) + 1)

/-- Numerator of the pandas `ewm(span=p).mean()` value at bar `t` with the
default `adjust=True`: the (1-α)-weighted sum of all samples up to `t`. -/
def emaNum (close : List ℚ) (p t : ℕ) : ℚ :=
  ∑ i ∈ Finset.range (t + 1), (1 - emaAlpha p) ^ i * close.getD (t - i) 0

/-- Denominator of the pandas adjusted EMA at bar `t`: `∑ i ≤ t, (1-α)^i`. -/
def emaDen (p t : ℕ) : ℚ :=
  ∑ i ∈ Finset.range (t + 1), (1 - emaAlpha p) ^ i

/-- `ema(data, period)` = `data.ewm(span=period).mean()` (strategies.py line
30).  pandas `ewm` defaults to `adjust=True`, i.e. the value at `t` is the
weighted mean `Σ (1-α)^i·x[t-i] / Σ (1-α)^i` over all history. -/
def ema (close : List ℚ) (p : ℕ) : ℕ → Option ℚ :=
  fun t => if t < close.length then some (emaNum close p t / emaDen p t) else none

/-! ## Signal generator (strategies.py lines 100-111, 232-237, 384-389) -/

/-- The trading-hour gate `(Hour >= start_hour) & (Hour <= end_hour)`. -/
def hourOk (hour : List ℕ) (sh eh t : ℕ) : Bool :=
  decide (sh ≤ hour.getD t 0) && decide (hour.getD t 0 ≤ eh)

/-- `Short signal` of the 2-MA strategy (line 106):
`(ma_s < ma_l) & (ma_s.shift(1) > ma_l.shift(1)) &` hour window. -/
def maShortSignal (mas mal : ℕ → Option ℚ) (hour : List ℕ) (sh eh t : ℕ) : Bool :=
  oLt (mas t) (mal t) && oGt (prevO mas t) (prevO mal t) && hourOk hour sh eh t

/-- `Short exit` of the 2-MA strategy (line 108):
`(ma_s > ma_l) & (ma_s.shift(1) < ma_l.shift(1))`. -/
def maShortExit (mas mal : ℕ → Option ℚ) (t : ℕ) : Bool :=
  oGt (mas t) (mal t) && oLt (prevO mas t) (prevO mal t)

/-- `Long signal` of the 2-MA strategy (line 109). -/
def maLongSignal (mas mal : ℕ → Option ℚ) (hour : List ℕ) (sh eh t : ℕ) : Bool :=
  oGt (mas t) (mal t) && oLt (prevO mas t) (prevO mal t) && hourOk hour sh eh t

/-- `Long exit` of the 2-MA strategy (line 111). -/
def maLongExit (mas mal : ℕ → Option ℚ) (t : ℕ) : Bool :=
  oLt (mas t) (mal t) && oGt (prevO mas t) (prevO mal t)

/-- `Short exit` of the 3-MA strategy (line 234):
`(ma_exit > ma_s) & (ma_exit.shift(1) < ma_s.shift(1))`. -/
def ma3ShortExit (mae mas : ℕ → Option ℚ) (t : ℕ) : Bool :=
  oGt (mae t) (mas t) && oLt (prevO mae t) (prevO mas t)

/-- `Long exit` of the 3-MA strategy (line 237). -/
def ma3LongExit (mae mas : ℕ → Option ℚ) (t : ℕ) : Bool :=
  oLt (mae t) (mas t) && oGt (prevO mae t) (prevO mas t)

/-- Raw %K before smoothing (strategies.py line 374): when the rolling
High/Low range is zero the quotient is numpy 0/0 = NaN, modelled as `none`. -/
def kRaw (close low high : List ℚ) (kp : ℕ) : ℕ → Option ℚ := fun t =>
  match listO close t, rollingMin (listO low) kp t, rollingMax (listO high) kp t with
  | some c, some lo, some hi =>
    if hi - lo = 0 then none else some ((c - lo) / (hi - lo) * 100)
  | _, _, _ => none

/-- `k_value` after smoothing (line 375). -/
def kValue (close low high : List ℚ) (kp sm : ℕ) : ℕ → Option ℚ :=
  rollingMean (kRaw close low high kp) sm

/-- `d_value` (line 376). -/
def dValue (close low high : List ℚ) (kp sm dp : ℕ) : ℕ → Option ℚ :=
  rollingMean (kValue close low high kp sm) dp

/-- `Short signal` of the stochastic strategy (line 384); the hour bound `eh`
is the sole element of the 1-tuple `self.end_hour` (see
`StochasticStrategy.run_backtest` below). -/
def stochShortSignal (k d : ℕ → Option ℚ) (hour : List ℕ) (sh eh t : ℕ) : Bool :=
  oLt (k t) (d t) && oGt (prevO k t) (prevO d t) && oGt (k t) (some 80) && hourOk hour sh eh t

/-- `Short exit` of the stochastic strategy (line 386). -/
def stochShortExit (k d : ℕ → Option ℚ) (t : ℕ) : Bool :=
  oGt (k t) (d t) && oLt (prevO k t) (prevO d t)

/-- `Long signal` of the stochastic strategy (line 387). -/
def stochLongSignal (k d : ℕ → Option ℚ) (hour : List ℕ) (sh eh t : ℕ) : Bool :=
  oGt (k t) (d t) && oLt (prevO k t) (prevO d t) && oLt (k t) (some 20) && hourOk hour sh eh t

/-- `Long exit` of the stochastic strategy (line 389). -/
def stochLongExit (k d : ℕ → Option ℚ) (t : ℕ) : Bool :=
  oLt (k t) (d t) && oGt (prevO k t) (prevO d t)

/-! ## Position resolver (strategies.py lines 113-132, identical in all three
strategy variants) -/

/-- Value of the `Short`/`Long` column after the two `.loc` assignments and
before the forward fill: the exit assignment (line 117/121) runs after the
enter assignment (line 116/120), so at a bar where both flags hold the cell
ends up holding the exit value 0. -/
def sideRaw (enter exitF : ℕ → Bool) (v : ℤ) (t : ℕ) : Option ℤ :=
  if exitF t then some 0 else if enter t then some v else none

/-- The per-side sticky state: bar 0 is forced to 0 (lines 124-125, applied
after the signal assignments), then NaNs are forward-filled (lines 128-129). -/
def sideState (enter exitF : ℕ → Bool) (v : ℤ) : ℕ → ℤ
  | 0 => 0
  | t + 1 =>
    match sideRaw enter exitF v (t + 1) with
    | some x => x
    | none => sideState enter exitF v t

/-- `Position` = `Long` + `Short` (line 132). -/
def positionOf (es xs el xl : ℕ → Bool) : ℕ → ℤ :=
  fun t => sideState el xl 1 t + sideState es xs (-1) t

/-! ## Return / equity calculator (strategies.py lines 134-140) -/

/-- `Market Return` = `np.log(Close).diff()`: undefined (NaN) at bar 0 and
beyond the series; `lg` stands for `np.log`. -/
def marketReturnF (lg : ℚ → ℚ) (close : List ℚ) : ℕ → Option ℚ := fun t =>
  if 1 ≤ t ∧ t < close.length then
    some (lg (close.getD t 0) - lg (close.getD (t - 1) 0))
  else none

/-- `Strategy` = `Market Return * Position` (same-bar product; NaN·0 = NaN). -/
def strategyReturnF (lg : ℚ → ℚ) (close : List ℚ) (pos : ℕ → ℤ) : ℕ → Option ℚ :=
  fun t => (marketReturnF lg close t).map fun r => r * ((pos t : ℤ) : ℚ)

/-- Sum of the defined (non-NaN) values of `f` over `0..t` — the running
total kept by `Series.cumsum()` (which skips NaNs). -/
def sumDefined (f : ℕ → Option ℚ) : ℕ → ℚ
  | 0 => (f 0).getD 0
  | t + 1 => sumDefined f t + (f (t + 1)).getD 0

/-- `Series.cumsum()`: NaN slots stay NaN, defined slots hold the running
total of the defined values so far. -/
def cumsumO (f : ℕ → Option ℚ) : ℕ → Option ℚ :=
  fun t => (f t).map fun _ => sumDefined f t

/-- `ReturnSeries.cumsum() + 1` (lines 139-140). -/
def equityOf (f : ℕ → Option ℚ) : ℕ → Option ℚ :=
  fun t => (cumsumO f t).map fun x => x + 1

/-! ## Strategy runs -/

/-- The series a completed `run_backtest` leaves on the data frame. -/
structure BacktestResult where
  position : ℕ → ℤ
  marketReturn : ℕ → Option ℚ
  strategyReturn : ℕ → Option ℚ
  marketEquity : ℕ → Option ℚ
  strategyEquity : ℕ → Option ℚ

/-- The `ma_type` argument: the two recognized strings, or anything else. -/
inductive MaType
  | SMA
  | EMA
  | other
  deriving DecidableEq

/-- Exception classes a strategy run can end with. `unboundLocal` is the
Python `UnboundLocalError`/`NameError` family, `lengthMismatch` the pandas
`ValueError: Lengths must match to compare`. `invalidConfig` is the
condition the spec prescribes; no code path produces it. -/
inductive RunError
  | unboundLocal
  | invalidConfig
  | lengthMismatch
  deriving DecidableEq

/-- Everything `MaStrategy.run_backtest` derives once the two MA series are
fixed (strategies.py lines 100-140). -/
def maResultOf (mas mal : ℕ → Option ℚ) (close : List ℚ) (hour : List ℕ)
    (sh eh : ℕ) (lg : ℚ → ℚ) : BacktestResult :=
  let pos := positionOf (maShortSignal mas mal hour sh eh) (maShortExit mas mal)
    (maLongSignal mas mal hour sh eh) (maLongExit mas mal)
  { position := pos
    marketReturn := marketReturnF lg close
    strategyReturn := strategyReturnF lg close pos
    marketEquity := equityOf (marketReturnF lg close)
    strategyEquity := equityOf (strategyReturnF lg close pos) }

/-- `MaStrategy.run_backtest` (strategies.py lines 76-176).  For an
unrecognized `ma_type` the code only prints a warning (lines 96-98) and
keeps going with `ma_s`/`ma_l` unbound, so the run dies with an
`UnboundLocalError` at the first signal computation (line 106). -/
def MaStrategy.run_backtest (mt : MaType) (close : List ℚ) (hour : List ℕ)
    (sp lp sh eh : ℕ) (lg : ℚ → ℚ) : Except RunError BacktestResult :=
  match mt with
  | .SMA => .ok (maResultOf (sma close sp) (sma close lp) close hour sh eh lg)
  | .EMA => .ok (maResultOf (ema close sp) (ema close lp) close hour sh eh lg)
  | .other => .error .unboundLocal

/-- The 3-MA variant's derived series: enters as in the 2-MA strategy,
exits against the dedicated exit MA (strategies.py lines 232-266). -/
def ma3ResultOf (mas mal mae : ℕ → Option ℚ) (close : List ℚ) (hour : List ℕ)
    (sh eh : ℕ) (lg : ℚ → ℚ) : BacktestResult :=
  let pos := positionOf (maShortSignal mas mal hour sh eh) (ma3ShortExit mae mas)
    (maLongSignal mas mal hour sh eh) (ma3LongExit mae mas)
  { position := pos
    marketReturn := marketReturnF lg close
    strategyReturn := strategyReturnF lg close pos
    marketEquity := equityOf (marketReturnF lg close)
    strategyEquity := equityOf (strategyReturnF lg close pos) }

/-- `Ma3Strategy.run_backtest` (strategies.py lines 200-308). -/
def Ma3Strategy.run_backtest (mt : MaType) (close : List ℚ) (hour : List ℕ)
    (sp lp ep sh eh : ℕ) (lg : ℚ → ℚ) : Except RunError BacktestResult :=
  match mt with
  | .SMA => .ok (ma3ResultOf (sma close sp) (sma close lp) (sma close ep) close hour sh eh lg)
  | .EMA => .ok (ma3ResultOf (ema close sp) (ema close lp) (ema close ep) close hour sh eh lg)
  | .other => .error .unboundLocal

/-- The stochastic variant's derived series (strategies.py lines 370-418). -/
def stochResultOf (close low high : List ℚ) (hour : List ℕ)
    (kp sm dp sh eh : ℕ) (lg : ℚ → ℚ) : BacktestResult :=
  let k := kValue close low high kp sm
  let d := dValue close low high kp sm dp
  let pos := positionOf (stochShortSignal k d hour sh eh) (stochShortExit k d)
    (stochLongSignal k d hour sh eh) (stochLongExit k d)
  { position := pos
    marketReturn := marketReturnF lg close
    strategyReturn := strategyReturnF lg close pos
    marketEquity := equityOf (marketReturnF lg close)
    strategyEquity := equityOf (strategyReturnF lg close pos) }

/-- `StochasticStrategy.run_backtest` (strategies.py lines 356-480).
`__init__` stores `self.end_hour = end_hour,` — a 1-tuple (line 333) — so
the comparison `self.data['Hour'] <= self.end_hour` at line 385 compares a
length-`n` series against a length-1 list-like and pandas raises
`ValueError: Lengths must match to compare` unless the frame has exactly
one row; with one row the lone pair is compared, i.e. the scalar gate. -/
def StochasticStrategy.run_backtest (close low high : List ℚ) (hour : List ℕ)
    (kp sm dp sh eh : ℕ) (lg : ℚ → ℚ) : Except RunError BacktestResult :=
  if close.length = 1 then
    .ok (stochResultOf close low high hour kp sm dp sh eh lg)
  else .error .lengthMismatch

/-! ## Ratio calculator (backtest.py lines 30-67) -/

/-- Exception classes of `calculate_ratios`: `emptyData` for `iloc[-1]` on an
empty frame, `argmaxEmpty` for `np.argmax` of an empty sequence
(`ValueError`), and the `divisionByZero` class named by the spec (never
produced: numpy float division does not raise). -/
inductive RatioError
  | emptyData
  | argmaxEmpty
  | divisionByZero
  deriving DecidableEq

/-- The tuple built at backtest.py lines 63-64.  `market_return`,
`strategy_return` and `rar` may be NaN (`none`); drawdown indices are the
positional indices of the spec's standardization. -/
structure Ratios where
  market_return : Option ℚ
  strategy_return : Option ℚ
  max_drawdown : ℚ
  drawdown_period : ℕ
  drawdown_start : ℕ
  drawdown_end : ℕ
  rar : Option ℚ
  deriving DecidableEq

/-- `Series.dropna()`. -/
def dropna (l : List (Option ℚ)) : List ℚ := l.filterMap id

/-- `np.maximum.accumulate(df) - df` (backtest.py line 46). -/
def drawdownDiff (df : List ℚ) : List ℚ :=
  List.zipWith (fun a b => a - b) (maxAccum df) df

/-- `calculate_ratios` (backtest.py lines 30-67) on the two equity columns.
`drawdown_end = np.argmax(maximum.accumulate(df) - df)`;
`drawdown_start = np.argmax(df[:drawdown_end])` — when that slice is empty
(a flat or monotonically rising curve puts `drawdown_end` at 0) `np.argmax`
raises, which is the `argmaxEmpty` outcome; the RAR quotient on line 52 is
only reached with a strictly positive `max_drawdown`. -/
def calculate_ratios (mEq sEq : List (Option ℚ)) : Except RatioError Ratios :=
  match mEq.getLast?, sEq.getLast? with
  | some ml, some sl =>
    let df := dropna sEq
    let dend := argmaxQ (drawdownDiff df)
    if df = [] then .error .argmaxEmpty
    else if df.take dend = [] then .error .argmaxEmpty
    else
      let dstart := argmaxQ (df.take dend)
      let md := (df.getD dstart 0 - df.getD dend 0) * 100
      .ok { market_return := ml.map fun x => x - 1
            strategy_return := sl.map fun x => x - 1
            max_drawdown := md
            drawdown_period := dend - dstart
            drawdown_start := dstart
            drawdown_end := dend
            rar := (sl.map fun x => x - 1).map fun r => r * 100 / md }
  | _, _ => .error .emptyData

/-! ## Monte Carlo search (ma_montecarlo.py) -/

/-- `arr[i:] = v` on a numpy 1-D array (ma_montecarlo.py lines 64, 78-79). -/
def sliceSet (arr : List ℚ) (i : ℕ) (v : ℚ) : List ℚ :=
  arr.take i ++ List.replicate (arr.length - i) v

/-- The result-storing part of the simulation loop: iteration `i` executes
`arr[i:] = value of run i`. -/
def mcStore : List ℚ → ℕ → List ℚ → List ℚ
  | acc, _, [] => acc
  | acc, i, v :: vs => mcStore (sliceSet acc i v) (i + 1) vs

/-- The per-run ratio array as the loop leaves it, starting from
`np.zeros(simulations_num)` (lines 49-50). -/
def mcFill (vals : List ℚ) : List ℚ :=
  mcStore (List.replicate vals.length 0) 0 vals

/-- The equal-period correction of the 2-MA Monte Carlo sampler
(ma_montecarlo.py lines 60-62): periods are drawn from [8, 80]; if the two
draws coincide the second is incremented, with no bound re-check. -/
def fixEqualPeriods (a b : ℕ) : ℕ × ℕ :=
  if a = b then (a, b + 1) else (a, b)

/-! ## Helper lemmas -/

theorem maxQ_cons (x : ℚ) (l : List ℚ) (h : l ≠ []) : maxQ (x :: l) = max x (maxQ l) := by
  cases l with
  | nil => exact absurd rfl h
  | cons y t => rfl

theorem minQ_cons (x : ℚ) (l : List ℚ) (h : l ≠ []) : minQ (x :: l) = min x (minQ l) := by
  cases l with
  | nil => exact absurd rfl h
  | cons y t => rfl

theorem le_maxQ (l : List ℚ) (j : ℕ) (hj : j < l.length) : l.getD j 0 ≤ maxQ l := by
  induction l generalizing j with
  | nil => simp at hj
  | cons x xs ih =>
    cases xs with
    | nil =>
      have : j = 0 := by simp only [List.length_singleton] at hj; omega
      subst this
      simp [maxQ]
    | cons y t =>
      cases j with
      | zero => simp [maxQ]
      | succ j' =>
        have h1 : (y :: t).getD j' 0 ≤ maxQ (y :: t) := ih j' (by simpa using hj)
        calc (x :: y :: t).getD (j' + 1) 0 = (y :: t).getD j' 0 := List.getD_cons_succ
          _ ≤ maxQ (y :: t) := h1
          _ ≤ maxQ (x :: y :: t) := le_max_right _ _

theorem minQ_le (l : List ℚ) (j : ℕ) (hj : j < l.length) : minQ l ≤ l.getD j 0 := by
  induction l generalizing j with
  | nil => simp at hj
  | cons x xs ih =>
    cases xs with
    | nil =>
      have : j = 0 := by simp only [List.length_singleton] at hj; omega
      subst this
      simp [minQ]
    | cons y t =>
      cases j with
      | zero => simp [minQ]
      | succ j' =>
        have h1 : minQ (y :: t) ≤ (y :: t).getD j' 0 := ih j' (by simpa using hj)
        calc minQ (x :: y :: t) ≤ minQ (y :: t) := min_le_right _ _
          _ ≤ (y :: t).getD j' 0 := h1
          _ = (x :: y :: t).getD (j' + 1) 0 := List.getD_cons_succ.symm

theorem getD_argmaxQ (l : List ℚ) (h : l ≠ []) : l.getD (argmaxQ l) 0 = maxQ l := by
  induction l with
  | nil => exact absurd rfl h
  | cons x xs ih =>
    cases xs with
    | nil => simp [argmaxQ, maxQ]
    | cons y t =>
      by_cases hc : maxQ (y :: t) ≤ x
      · simp [argmaxQ, maxQ, hc, max_eq_left hc]
      · have h2 := ih (by simp)
        have hx : x ≤ maxQ (y :: t) := le_of_lt (lt_of_not_le hc)
        simp only [argmaxQ, if_neg hc, List.getD_cons_succ, h2]
        exact (max_eq_right hx).symm

theorem getD_argminQ (l : List ℚ) (h : l ≠ []) : l.getD (argminQ l) 0 = minQ l := by
  induction l with
  | nil => exact absurd rfl h
  | cons x xs ih =>
    cases xs with
    | nil => simp [argminQ, minQ]
    | cons y t =>
      by_cases hc : x ≤ minQ (y :: t)
      · simp [argminQ, minQ, hc, min_eq_left hc]
      · have h2 := ih (by simp)
        have hx : minQ (y :: t) ≤ x := le_of_lt (lt_of_not_le hc)
        simp only [argminQ, if_neg hc, List.getD_cons_succ, h2]
        exact (min_eq_right hx).symm

theorem argmaxQ_lt_length (l : List ℚ) (h : l ≠ []) : argmaxQ l < l.length := by
  induction l with
  | nil => exact absurd rfl h
  | cons x xs ih =>
    cases xs with
    | nil => simp [argmaxQ]
    | cons y t =>
      by_cases hc : maxQ (y :: t) ≤ x
      · simp [argmaxQ, hc]
      · have h3 : argmaxQ (y :: t) < t.length + 1 := by simpa using ih (by simp)
        simp only [argmaxQ, if_neg hc, List.length_cons]
        omega

theorem argmaxQ_head_lt (x : ℚ) (l : List ℚ) (h : argmaxQ (x :: l) ≠ 0) :
    x < maxQ (x :: l) := by
  cases l with
  | nil => simp [argmaxQ] at h
  | cons y t =>
    by_cases hc : maxQ (y :: t) ≤ x
    · simp [argmaxQ, hc] at h
    · have hx : x < maxQ (y :: t) := lt_of_not_le hc
      exact lt_of_lt_of_le hx (le_max_right _ _)

theorem maxAccumFrom_length (c : ℚ) (l : List ℚ) : (maxAccumFrom c l).length = l.length := by
  induction l generalizing c with
  | nil => rfl
  | cons x xs ih => simp [maxAccumFrom, ih]

theorem maxAccum_length (l : List ℚ) : (maxAccum l).length = l.length := by
  cases l with
  | nil => rfl
  | cons x xs => simp [maxAccum, maxAccumFrom_length]

theorem take_ne_nil_of (l : List ℚ) (n : ℕ) (hl : l ≠ []) (hn : n ≠ 0) : l.take n ≠ [] := by
  cases l with
  | nil => exact absurd rfl hl
  | cons x xs =>
    cases n with
    | zero => exact absurd rfl hn
    | succ m => simp [List.take_succ_cons]

theorem getD_take_of_lt (l : List ℚ) (n j : ℕ) (hj : j < n) :
    (l.take n).getD j 0 = l.getD j 0 := by
  induction l generalizing n j with
  | nil => simp
  | cons x xs ih =>
    cases n with
    | zero => omega
    | succ m =>
      cases j with
      | zero => simp [List.take_succ_cons]
      | succ j' =>
        simp only [List.take_succ_cons, List.getD_cons_succ]
        exact ih m j' (by omega)

theorem maxAccumFrom_getD (l : List ℚ) (c : ℚ) (t : ℕ) (ht : t < l.length) :
    (maxAccumFrom c l).getD t 0 = max c (maxQ (l.take (t + 1))) := by
  induction l generalizing c t with
  | nil => simp at ht
  | cons x xs ih =>
    cases t with
    | zero => simp [maxAccumFrom, maxQ]
    | succ u =>
      have hu : u < xs.length := by simpa using ht
      have hxs : xs ≠ [] := by intro h; subst h; simp at hu
      have htk : xs.take (u + 1) ≠ [] := take_ne_nil_of xs (u + 1) hxs (by omega)
      simp only [maxAccumFrom, List.getD_cons_succ, ih (max c x) u hu, List.take_succ_cons,
        maxQ_cons x (xs.take (u + 1)) htk]
      exact max_assoc c x (maxQ (xs.take (u + 1)))

theorem maxAccum_getD (l : List ℚ) (t : ℕ) (ht : t < l.length) :
    (maxAccum l).getD t 0 = maxQ (l.take (t + 1)) := by
  cases l with
  | nil => simp at ht
  | cons x xs =>
    cases t with
    | zero => simp [maxAccum, maxQ]
    | succ u =>
      have hu : u < xs.length := by simpa using ht
      have hxs : xs ≠ [] := by intro h; subst h; simp at hu
      have htk : xs.take (u + 1) ≠ [] := take_ne_nil_of xs (u + 1) hxs (by omega)
      simp only [maxAccum, List.getD_cons_succ, maxAccumFrom_getD xs x u hu,
        List.take_succ_cons, maxQ_cons x (xs.take (u + 1)) htk]

theorem maxQ_take_succ (l : List ℚ) (t : ℕ) (h1 : 1 ≤ t) (h2 : t < l.length) :
    maxQ (l.take (t + 1)) = max (maxQ (l.take t)) (l.getD t 0) := by
  induction l generalizing t with
  | nil => simp at h2
  | cons x xs ih =>
    cases t with
    | zero => omega
    | succ u =>
      cases u with
      | zero =>
        cases xs with
        | nil => simp at h2
        | cons y t2 => simp [maxQ, List.take_succ_cons]
      | succ u' =>
        have hu : u' + 1 < xs.length := by simpa using h2
        have hxs : xs ≠ [] := by intro h; subst h; simp at hu
        have ih' := ih (u' + 1) (by omega) hu
        have htk1 : xs.take (u' + 2) ≠ [] := take_ne_nil_of xs (u' + 2) hxs (by omega)
        have htk2 : xs.take (u' + 1) ≠ [] := take_ne_nil_of xs (u' + 1) hxs (by omega)
        simp only [List.take_succ_cons, List.getD_cons_succ,
          maxQ_cons x (xs.take (u' + 2)) htk1, maxQ_cons x (xs.take (u' + 1)) htk2, ih']
        exact (max_assoc x (maxQ (xs.take (u' + 1))) (xs.getD (u' + 1) 0)).symm

theorem getD_zipWith_sub (a b : List ℚ) (j : ℕ) (ha : j < a.length) (hb : j < b.length) :
    (List.zipWith (fun x y => x - y) a b).getD j 0 = a.getD j 0 - b.getD j 0 := by
  induction a generalizing b j with
  | nil => simp at ha
  | cons x xs ih =>
    cases b with
    | nil => simp at hb
    | cons y ys =>
      cases j with
      | zero => simp [List.zipWith]
      | succ j' =>
        simp only [List.zipWith, List.getD_cons_succ]
        exact ih ys j' (by simpa using ha) (by simpa using hb)

theorem drawdownDiff_length (df : List ℚ) : (drawdownDiff df).length = df.length := by
  simp [drawdownDiff, List.length_zipWith, maxAccum_length]

theorem drawdownDiff_getD (df : List ℚ) (j : ℕ) (hj : j < df.length) :
    (drawdownDiff df).getD j 0 = (maxAccum df).getD j 0 - df.getD j 0 :=
  getD_zipWith_sub (maxAccum df) df j (by rw [maxAccum_length]; exact hj) hj

theorem maxAccumFrom_of_chain (l : List ℚ) (c : ℚ) (h : List.Chain' (· ≤ ·) (c :: l)) :
    maxAccumFrom c l = l := by
  induction l generalizing c with
  | nil => rfl
  | cons x xs ih =>
    rcases List.chain'_cons.mp h with ⟨hcx, hx⟩
    simp only [maxAccumFrom, max_eq_right hcx]
    rw [ih x hx]

theorem maxAccum_of_chain (l : List ℚ) (h : List.Chain' (· ≤ ·) l) : maxAccum l = l := by
  cases l with
  | nil => rfl
  | cons x xs => simp [maxAccum, maxAccumFrom_of_chain xs x h]

theorem zipWith_sub_self (l : List ℚ) :
    List.zipWith (fun x y => x - y) l l = l.map fun _ => (0 : ℚ) := by
  induction l with
  | nil => rfl
  | cons x xs ih => simp [List.zipWith, ih]

theorem maxQ_map_zero (l : List ℚ) : maxQ (l.map fun _ => (0 : ℚ)) = 0 := by
  induction l with
  | nil => rfl
  | cons x xs ih =>
    cases xs with
    | nil => rfl
    | cons y t =>
      have : maxQ ((x :: y :: t).map fun _ => (0 : ℚ)) =
          max 0 (maxQ ((y :: t).map fun _ => (0 : ℚ))) := rfl
      rw [this, ih, max_self]

theorem argmaxQ_map_zero (l : List ℚ) : argmaxQ (l.map fun _ => (0 : ℚ)) = 0 := by
  cases l with
  | nil => rfl
  | cons x xs =>
    cases xs with
    | nil => rfl
    | cons y t =>
      have hz : maxQ ((0 : ℚ) :: t.map fun _ => (0 : ℚ)) ≤ 0 := by
        have h0 := maxQ_map_zero (y :: t)
        simp only [List.map_cons] at h0
        exact le_of_eq h0
      show argmaxQ ((0 : ℚ) :: (0 : ℚ) :: t.map fun _ => (0 : ℚ)) = 0
      simp only [argmaxQ, if_pos hz]

theorem getLast?_of_ne_nil (l : List (Option ℚ)) (h : l ≠ []) : ∃ a, l.getLast? = some a :=
  ⟨l.getLast h, List.getLast?_eq_getLast l h⟩

theorem sideState_zero_or (e x : ℕ → Bool) (v : ℤ) (t : ℕ) :
    sideState e x v t = 0 ∨ sideState e x v t = v := by
  induction t with
  | zero => left; rfl
  | succ u ih =>
    by_cases hx : x (u + 1)
    · left; simp [sideState, sideRaw, hx]
    · by_cases he : e (u + 1)
      · right; simp [sideState, sideRaw, hx, he]
      · simpa [sideState, sideRaw, hx, he] using ih

theorem positionOf_mem (es xs el xl : ℕ → Bool) (t : ℕ) :
    positionOf es xs el xl t = -1 ∨ positionOf es xs el xl t = 0 ∨
      positionOf es xs el xl t = 1 := by
  rcases sideState_zero_or el xl 1 t with h1 | h1 <;>
    rcases sideState_zero_or es xs (-1) t with h2 | h2 <;>
      simp [positionOf, h1, h2]

theorem positionOf_zero (es xs el xl : ℕ → Bool) : positionOf es xs el xl 0 = 0 := rfl

theorem sliceSet_take (acc : List ℚ) (i : ℕ) (v : ℚ) (hi : i < acc.length) :
    (sliceSet acc i v).take (i + 1) = acc.take i ++ [v] := by
  have hlen : (acc.take i).length = i := by
    rw [List.length_take]; omega
  have h1 : (acc.take i).take (i + 1) = acc.take i :=
    List.take_of_length_le (by rw [hlen]; omega)
  have h2 : i + 1 - i = 1 := by omega
  rw [sliceSet, List.take_append_eq_append_take, hlen, h1, h2]
  obtain ⟨k, hk⟩ : ∃ k, acc.length - i = k + 1 := ⟨acc.length - i - 1, by omega⟩
  rw [hk, List.replicate_succ]
  simp

theorem sliceSet_length (acc : List ℚ) (i : ℕ) (v : ℚ) (hi : i ≤ acc.length) :
    (sliceSet acc i v).length = acc.length := by
  simp only [sliceSet, List.length_append, List.length_take, List.length_replicate]
  omega

theorem mcStore_eq (vs : List ℚ) : ∀ (acc : List ℚ) (i : ℕ),
    acc.length = i + vs.length → mcStore acc i vs = acc.take i ++ vs := by
  induction vs with
  | nil =>
    intro acc i h
    simp only [List.length_nil, Nat.add_zero] at h
    simp only [mcStore, List.append_nil]
    exact (List.take_of_length_le (le_of_eq h)).symm
  | cons v vs ih =>
    intro acc i h
    have hi : i < acc.length := by simp at h; omega
    have hlen : (sliceSet acc i v).length = (i + 1) + vs.length := by
      rw [sliceSet_length acc i v (le_of_lt hi)]; simp at h; omega
    rw [mcStore, ih (sliceSet acc i v) (i + 1) hlen, sliceSet_take acc i v hi]
    simp

theorem mcFill_eq (vals : List ℚ) : mcFill vals = vals := by
  rw [mcFill, mcStore_eq vals (List.replicate vals.length 0) 0 (by simp)]
  simp

theorem equityOf_eq_none (f : ℕ → Option ℚ) (t : ℕ) (h : f t = none) :
    equityOf f t = none := by
  simp [equityOf, cumsumO, h]

theorem equityOf_eq_some (f : ℕ → Option ℚ) (t : ℕ) (r : ℚ) (h : f t = some r) :
    equityOf f t = some (sumDefined f t + 1) := by
  simp [equityOf, cumsumO, h]

theorem emaAlpha_le_one (p : ℕ) (hp : 1 ≤ p) : emaAlpha p ≤ 1 := by
  rw [emaAlpha, div_le_one (by positivity)]
  have : (1 : ℚ) ≤ (p : ℚ) := by exact_mod_cast hp
  linarith

theorem one_sub_emaAlpha_nonneg (p : ℕ) (hp : 1 ≤ p) : 0 ≤ 1 - emaAlpha p := by
  linarith [emaAlpha_le_one p hp]

theorem emaDen_pos (p : ℕ) (hp : 1 ≤ p) (t : ℕ) : 0 < emaDen p t := by
  have hb := one_sub_emaAlpha_nonneg p hp
  have h1 : ((1 : ℚ) - emaAlpha p) ^ 0 ≤ emaDen p t := by
    exact Finset.single_le_sum (fun i _ => pow_nonneg hb i)
      (Finset.mem_range.mpr (Nat.succ_pos t))
  simp only [pow_zero] at h1
  linarith

theorem emaNum_succ (close : List ℚ) (p t : ℕ) :
    emaNum close p (t + 1) = close.getD (t + 1) 0 + (1 - emaAlpha p) * emaNum close p t := by
  have key : emaNum close p (t + 1) =
      (1 - emaAlpha p) * emaNum close p t + close.getD (t + 1) 0 := by
    rw [emaNum, Finset.sum_range_succ']
    congr 1
    · rw [emaNum, Finset.mul_sum]
      apply Finset.sum_congr rfl
      intro i _
      simp only [Nat.succ_sub_succ]
      ring
    · simp
  rw [key, add_comm]

theorem emaDen_succ (p t : ℕ) :
    emaDen p (t + 1) = 1 + (1 - emaAlpha p) * emaDen p t := by
  have key : emaDen p (t + 1) = (1 - emaAlpha p) * emaDen p t + 1 := by
    rw [emaDen, Finset.sum_range_succ']
    congr 1
    rw [emaDen, Finset.mul_sum]
    apply Finset.sum_congr rfl
    intro i _
    ring
  rw [key, add_comm]

theorem marketReturnF_defined (lg : ℚ → ℚ) (close : List ℚ) (s : ℕ)
    (h1 : 1 ≤ s) (h2 : s < close.length) :
    marketReturnF lg close s = some (lg (close.getD s 0) - lg (close.getD (s - 1) 0)) := by
  simp only [marketReturnF]
  rw [if_pos ⟨h1, h2⟩]

theorem strategyReturnF_defined (lg : ℚ → ℚ) (close : List ℚ) (pos : ℕ → ℤ) (s : ℕ)
    (h1 : 1 ≤ s) (h2 : s < close.length) :
    strategyReturnF lg close pos s =
      some ((lg (close.getD s 0) - lg (close.getD (s - 1) 0)) * ((pos s : ℤ) : ℚ)) := by
  simp only [strategyReturnF, marketReturnF_defined lg close s h1 h2, Option.map_some']

theorem strategyReturnF_none (lg : ℚ → ℚ) (close : List ℚ) (pos : ℕ → ℤ) (s : ℕ)
    (h : marketReturnF lg close s = none) : strategyReturnF lg close pos s = none := by
  simp [strategyReturnF, h]

theorem equity_start (f : ℕ → Option ℚ) (a : ℚ) (h0 : f 0 = none) (h1 : f 1 = some a) :
    equityOf f 1 = some (1 + a) := by
  rw [equityOf_eq_some f 1 a h1]
  congr 1
  show (f 0).getD 0 + (f 1).getD 0 + 1 = 1 + a
  rw [h0, h1, Option.getD_none, Option.getD_some]
  ring

theorem equity_step (f : ℕ → Option ℚ) (u : ℕ) (a b : ℚ)
    (h1 : f (u + 1) = some a) (h2 : f (u + 2) = some b) :
    ∃ e, equityOf f (u + 1) = some e ∧ equityOf f (u + 2) = some (e + b) := by
  refine ⟨sumDefined f (u + 1) + 1, equityOf_eq_some f (u + 1) a h1, ?_⟩
  rw [equityOf_eq_some f (u + 2) b h2]
  congr 1
  show sumDefined f (u + 1) + (f (u + 2)).getD 0 + 1 = sumDefined f (u + 1) + 1 + b
  rw [h2, Option.getD_some]
  ring

/-! ## Claims -/

/-- C10: at a bar where both the enter flag and the exit flag of one side
hold simultaneously, the resolved per-side state at that bar is the exit
value 0 and not the enter value, because the exit `.loc` assignment is
applied after the enter assignment. -/
theorem c10_enter_exit_precedence (e x : ℕ → Bool) (v : ℤ) (t : ℕ)
    (he : e t = true) (hx : x t = true) : sideState e x v t = 0 := by
  cases t with
  | zero => rfl
  | succ u => simp [sideState, sideRaw, hx]

/-- Witness for C10 at the all-true flag functions, bar 5, short side. -/
theorem c10_enter_exit_precedence_witness :
    sideState (fun _ => true) (fun _ => true) (-1) 5 = 0 :=
  c10_enter_exit_precedence (fun _ => true) (fun _ => true) (-1) 5 rfl rfl

/-- C9: in the two-MA Monte Carlo sampler, whenever the two periods drawn
from [8, 80] are equal the second is incremented by one with no bound
re-check, so after the correction the periods always differ, the second is
at most 81, and it does reach 81 (exceeding the declared bound 80) when both
draws are 80. -/
theorem c9_period_correction (a b : ℕ) (ha1 : 8 ≤ a) (ha2 : a ≤ 80)
    (hb1 : 8 ≤ b) (hb2 : b ≤ 80) :
    ((fixEqualPeriods a b).1 ≠ (fixEqualPeriods a b).2 ∧ (fixEqualPeriods a b).2 ≤ 81) ∧
      (fixEqualPeriods 80 80).2 = 81 ∧ 80 < (fixEqualPeriods 80 80).2 := by
  refine ⟨?_, by decide, by decide⟩
  by_cases h : a = b <;> simp [fixEqualPeriods, h] <;> omega

/-- Witness for C9 at the in-range draws (8, 9). -/
theorem c9_period_correction_witness :
    ((fixEqualPeriods 8 9).1 ≠ (fixEqualPeriods 8 9).2 ∧ (fixEqualPeriods 8 9).2 ≤ 81) ∧
      (fixEqualPeriods 80 80).2 = 81 ∧ 80 < (fixEqualPeriods 80 80).2 :=
  c9_period_correction 8 9 (by decide) (by decide) (by decide) (by decide)

/-- C8 (code defect): with an unrecognized ma_type the run is not aborted by
an InvalidConfig-class condition; the code prints a warning, continues, and
dies with the UnboundLocalError raised at the first use of the never-bound
MA series. -/
theorem c8_matype_divergence :
    MaStrategy.run_backtest MaType.other [1, 2, 3] [0, 0, 0] 2 3 0 23 id =
        Except.error RunError.unboundLocal ∧
      MaStrategy.run_backtest MaType.other [1, 2, 3] [0, 0, 0] 2 3 0 23 id ≠
        Except.error RunError.invalidConfig := by
  refine ⟨rfl, ?_⟩
  intro h
  simp only [MaStrategy.run_backtest, Except.error.injEq] at h
  exact RunError.noConfusion h

/-- C2: in every Monte Carlo batch with at least one run, the run selected
by `argmax` of the stored strategy-return array has a strategy return at
least that of every run in the batch, and the run selected by `argmin` of
the stored drawdown array has a drawdown at most that of every run;
the arrays are as left by the `arr[i:] = value` stores of the loop. -/
theorem c2_montecarlo_selection (rets dds : List ℚ) (hn : 1 ≤ rets.length)
    (hm : rets.length = dds.length) (j : ℕ) (hj : j < rets.length) :
    (mcFill rets).getD j 0 ≤ (mcFill rets).getD (argmaxQ (mcFill rets)) 0 ∧
      (mcFill dds).getD (argminQ (mcFill dds)) 0 ≤ (mcFill dds).getD j 0 := by
  rw [mcFill_eq rets, mcFill_eq dds]
  have hrne : rets ≠ [] := by
    intro h
    rw [h] at hn
    simp at hn
  have hdne : dds ≠ [] := by
    intro h
    apply hrne
    rw [h] at hm
    simp only [List.length_nil] at hm
    exact List.length_eq_zero.mp hm
  refine ⟨?_, ?_⟩
  · rw [getD_argmaxQ rets hrne]
    exact le_maxQ rets j hj
  · rw [getD_argminQ dds hdne]
    exact minQ_le dds j (by omega)

/-- Witness for C2 on the 3-run batch returns [1, 3, 2], drawdowns [5, 2, 4]. -/
theorem c2_montecarlo_selection_witness :
    (mcFill [(1 : ℚ), 3, 2]).getD 0 0 ≤
        (mcFill [(1 : ℚ), 3, 2]).getD (argmaxQ (mcFill [(1 : ℚ), 3, 2])) 0 ∧
      (mcFill [(5 : ℚ), 2, 4]).getD (argminQ (mcFill [(5 : ℚ), 2, 4])) 0 ≤
        (mcFill [(5 : ℚ), 2, 4]).getD 0 0 :=
  c2_montecarlo_selection [(1 : ℚ), 3, 2] [(5 : ℚ), 2, 4]
    (by decide) (by decide) 0 (by decide)

/-- C1: whenever a `run_backtest` completes — for each of the three strategy
variants — every value of the resulting Position series lies in {-1, 0, 1},
and the Position at the first bar is 0 regardless of which signal flags hold
there (bar 0 of both side columns is overwritten with 0 after the signal
assignments). -/
theorem c1_position_invariant
    (mt : MaType) (close : List ℚ) (hour : List ℕ) (sp lp sh eh : ℕ) (lg : ℚ → ℚ)
    (r : BacktestResult)
    (mt3 : MaType) (close3 : List ℚ) (hour3 : List ℕ) (sp3 lp3 ep3 sh3 eh3 : ℕ)
    (lg3 : ℚ → ℚ) (r3 : BacktestResult)
    (closeS lowS highS : List ℚ) (hourS : List ℕ) (kp sm dp shS ehS : ℕ)
    (lgS : ℚ → ℚ) (rS : BacktestResult)
    (h : MaStrategy.run_backtest mt close hour sp lp sh eh lg = Except.ok r)
    (h3 : Ma3Strategy.run_backtest mt3 close3 hour3 sp3 lp3 ep3 sh3 eh3 lg3 = Except.ok r3)
    (hS : StochasticStrategy.run_backtest closeS lowS highS hourS kp sm dp shS ehS lgS =
      Except.ok rS)
    (t : ℕ) :
    ((r.position t = -1 ∨ r.position t = 0 ∨ r.position t = 1) ∧ r.position 0 = 0) ∧
      ((r3.position t = -1 ∨ r3.position t = 0 ∨ r3.position t = 1) ∧ r3.position 0 = 0) ∧
      ((rS.position t = -1 ∨ rS.position t = 0 ∨ rS.position t = 1) ∧ rS.position 0 = 0) := by
  refine ⟨?_, ?_, ?_⟩
  · cases mt with
    | SMA =>
      simp only [MaStrategy.run_backtest, Except.ok.injEq] at h
      subst h
      exact ⟨positionOf_mem _ _ _ _ t, positionOf_zero _ _ _ _⟩
    | EMA =>
      simp only [MaStrategy.run_backtest, Except.ok.injEq] at h
      subst h
      exact ⟨positionOf_mem _ _ _ _ t, positionOf_zero _ _ _ _⟩
    | other => exact Except.noConfusion h
  · cases mt3 with
    | SMA =>
      simp only [Ma3Strategy.run_backtest, Except.ok.injEq] at h3
      subst h3
      exact ⟨positionOf_mem _ _ _ _ t, positionOf_zero _ _ _ _⟩
    | EMA =>
      simp only [Ma3Strategy.run_backtest, Except.ok.injEq] at h3
      subst h3
      exact ⟨positionOf_mem _ _ _ _ t, positionOf_zero _ _ _ _⟩
    | other => exact Except.noConfusion h3
  · by_cases hl : closeS.length = 1
    · rw [StochasticStrategy.run_backtest, if_pos hl] at hS
      have := Except.ok.inj hS
      subst this
      exact ⟨positionOf_mem _ _ _ _ t, positionOf_zero _ _ _ _⟩
    · rw [StochasticStrategy.run_backtest, if_neg hl] at hS
      exact Except.noConfusion hS

/-- Witness for C1: concrete SMA 2-MA and 3-MA runs on Close = [1, 2] and a
single-bar stochastic run, evaluated at bar 1. -/
theorem c1_position_invariant_witness :
    (((maResultOf (sma [(1 : ℚ), 2] 1) (sma [(1 : ℚ), 2] 2) [(1 : ℚ), 2] [0, 0]
          0 23 id).position 1 = -1 ∨
        (maResultOf (sma [(1 : ℚ), 2] 1) (sma [(1 : ℚ), 2] 2) [(1 : ℚ), 2] [0, 0]
          0 23 id).position 1 = 0 ∨
        (maResultOf (sma [(1 : ℚ), 2] 1) (sma [(1 : ℚ), 2] 2) [(1 : ℚ), 2] [0, 0]
          0 23 id).position 1 = 1) ∧
      (maResultOf (sma [(1 : ℚ), 2] 1) (sma [(1 : ℚ), 2] 2) [(1 : ℚ), 2] [0, 0]
        0 23 id).position 0 = 0) ∧
    (((ma3ResultOf (sma [(1 : ℚ), 2] 1) (sma [(1 : ℚ), 2] 2) (sma [(1 : ℚ), 2] 1)
          [(1 : ℚ), 2] [0, 0] 0 23 id).position 1 = -1 ∨
        (ma3ResultOf (sma [(1 : ℚ), 2] 1) (sma [(1 : ℚ), 2] 2) (sma [(1 : ℚ), 2] 1)
          [(1 : ℚ), 2] [0, 0] 0 23 id).position 1 = 0 ∨
        (ma3ResultOf (sma [(1 : ℚ), 2] 1) (sma [(1 : ℚ), 2] 2) (sma [(1 : ℚ), 2] 1)
          [(1 : ℚ), 2] [0, 0] 0 23 id).position 1 = 1) ∧
      (ma3ResultOf (sma [(1 : ℚ), 2] 1) (sma [(1 : ℚ), 2] 2) (sma [(1 : ℚ), 2] 1)
        [(1 : ℚ), 2] [0, 0] 0 23 id).position 0 = 0) ∧
    (((stochResultOf [(1 : ℚ)] [(1 : ℚ)] [(1 : ℚ)] [0] 1 1 1 0 23 id).position 1 = -1 ∨
        (stochResultOf [(1 : ℚ)] [(1 : ℚ)] [(1 : ℚ)] [0] 1 1 1 0 23 id).position 1 = 0 ∨
        (stochResultOf [(1 : ℚ)] [(1 : ℚ)] [(1 : ℚ)] [0] 1 1 1 0 23 id).position 1 = 1) ∧
      (stochResultOf [(1 : ℚ)] [(1 : ℚ)] [(1 : ℚ)] [0] 1 1 1 0 23 id).position 0 = 0) :=
  c1_position_invariant MaType.SMA [(1 : ℚ), 2] [0, 0] 1 2 0 23 id
    (maResultOf (sma [(1 : ℚ), 2] 1) (sma [(1 : ℚ), 2] 2) [(1 : ℚ), 2] [0, 0] 0 23 id)
    MaType.SMA [(1 : ℚ), 2] [0, 0] 1 2 1 0 23 id
    (ma3ResultOf (sma [(1 : ℚ), 2] 1) (sma [(1 : ℚ), 2] 2) (sma [(1 : ℚ), 2] 1)
      [(1 : ℚ), 2] [0, 0] 0 23 id)
    [(1 : ℚ)] [(1 : ℚ)] [(1 : ℚ)] [0] 1 1 1 0 23 id
    (stochResultOf [(1 : ℚ)] [(1 : ℚ)] [(1 : ℚ)] [0] 1 1 1 0 23 id)
    rfl rfl rfl 1

/-- C7 counterexample: on Close = [1, 2] the market return at bar 0 is
undefined, and the market equity at bar 0 computed by the pipeline is NaN
(`cumsum` keeps the NaN slot), not the value 1 the claim assigns to the
undefined case. -/
theorem c7_equity_counterexample :
    marketReturnF id [1, 2] 0 = none ∧
      equityOf (marketReturnF id [1, 2]) 0 = none ∧
      equityOf (marketReturnF id [1, 2]) 0 ≠ some 1 := by
  refine ⟨by decide, by decide, by decide⟩

/-- C7 (amended): for the equity curves built by `run_backtest`,
Equity[0] is undefined (NaN) because Return[0] is undefined and `cumsum`
preserves the NaN slot; Equity[1] = 1 + Return[1]; and the additive
recursion Equity[t] = Equity[t-1] + Return[t] holds for every t ≥ 2 within
the series, for both the market and the strategy curve. -/
theorem c7_equity_recursion (lg : ℚ → ℚ) (close : List ℚ) (pos : ℕ → ℤ) (t : ℕ) :
    (equityOf (marketReturnF lg close) 0 = none ∧
      equityOf (strategyReturnF lg close pos) 0 = none) ∧
    (1 < close.length →
      (∃ r, marketReturnF lg close 1 = some r ∧
        equityOf (marketReturnF lg close) 1 = some (1 + r)) ∧
      (∃ r, strategyReturnF lg close pos 1 = some r ∧
        equityOf (strategyReturnF lg close pos) 1 = some (1 + r))) ∧
    (2 ≤ t → t < close.length →
      (∃ e r, equityOf (marketReturnF lg close) (t - 1) = some e ∧
        marketReturnF lg close t = some r ∧
        equityOf (marketReturnF lg close) t = some (e + r)) ∧
      (∃ e r, equityOf (strategyReturnF lg close pos) (t - 1) = some e ∧
        strategyReturnF lg close pos t = some r ∧
        equityOf (strategyReturnF lg close pos) t = some (e + r))) := by
  have hm0 : marketReturnF lg close 0 = none := by simp [marketReturnF]
  have hs0 : strategyReturnF lg close pos 0 = none := strategyReturnF_none lg close pos 0 hm0
  refine ⟨⟨equityOf_eq_none _ _ hm0, equityOf_eq_none _ _ hs0⟩, ?_, ?_⟩
  · intro hlen
    have hm1 := marketReturnF_defined lg close 1 (le_refl 1) hlen
    have hs1 := strategyReturnF_defined lg close pos 1 (le_refl 1) hlen
    exact ⟨⟨_, hm1, equity_start _ _ hm0 hm1⟩, ⟨_, hs1, equity_start _ _ hs0 hs1⟩⟩
  · intro h2 hlt
    obtain ⟨u, rfl⟩ : ∃ u, t = u + 2 := ⟨t - 2, by omega⟩
    have hmp := marketReturnF_defined lg close (u + 1) (by omega) (by omega)
    have hmc := marketReturnF_defined lg close (u + 2) (by omega) hlt
    have hsp := strategyReturnF_defined lg close pos (u + 1) (by omega) (by omega)
    have hsc := strategyReturnF_defined lg close pos (u + 2) (by omega) hlt
    obtain ⟨em, hme1, hme2⟩ := equity_step (marketReturnF lg close) u _ _ hmp hmc
    obtain ⟨es, hse1, hse2⟩ := equity_step (strategyReturnF lg close pos) u _ _ hsp hsc
    exact ⟨⟨em, _, hme1, hmc, hme2⟩, ⟨es, _, hse1, hsc, hse2⟩⟩

/-- Witness for C7 on Close = [1, 2, 3] with lg = id, the zero position, at
bar 2. -/
theorem c7_equity_recursion_witness :
    (equityOf (marketReturnF id [(1 : ℚ), 2, 3]) 0 = none ∧
      equityOf (strategyReturnF id [(1 : ℚ), 2, 3] fun _ => 0) 0 = none) ∧
    ((∃ r, marketReturnF id [(1 : ℚ), 2, 3] 1 = some r ∧
        equityOf (marketReturnF id [(1 : ℚ), 2, 3]) 1 = some (1 + r)) ∧
      (∃ r, strategyReturnF id [(1 : ℚ), 2, 3] (fun _ => 0) 1 = some r ∧
        equityOf (strategyReturnF id [(1 : ℚ), 2, 3] fun _ => 0) 1 = some (1 + r))) ∧
    ((∃ e r, equityOf (marketReturnF id [(1 : ℚ), 2, 3]) 1 = some e ∧
        marketReturnF id [(1 : ℚ), 2, 3] 2 = some r ∧
        equityOf (marketReturnF id [(1 : ℚ), 2, 3]) 2 = some (e + r)) ∧
      (∃ e r, equityOf (strategyReturnF id [(1 : ℚ), 2, 3] fun _ => 0) 1 = some e ∧
        strategyReturnF id [(1 : ℚ), 2, 3] (fun _ => 0) 2 = some r ∧
        equityOf (strategyReturnF id [(1 : ℚ), 2, 3] fun _ => 0) 2 = some (e + r))) := by
  have h := c7_equity_recursion id [(1 : ℚ), 2, 3] (fun _ => 0) 2
  exact ⟨h.1, h.2.1 (by decide), h.2.2 (by decide) (by decide)⟩

/-- C5 counterexample: for S = [0, 1] and period 3 (α = 1/2) the pandas
span-EMA gives EMA[1] = 2/3, while the claimed fixed-α recursion
α·S[1] + (1-α)·EMA[0] gives 1/2 — the recursive identity fails at t = 1. -/
theorem c5_ema_counterexample :
    ema [0, 1] 3 0 = some 0 ∧
      ema [0, 1] 3 1 = some (2 / 3) ∧
      emaAlpha 3 * 1 + (1 - emaAlpha 3) * 0 = (1 / 2 : ℚ) ∧
      ema [0, 1] 3 1 ≠ some (emaAlpha 3 * 1 + (1 - emaAlpha 3) * 0) := by
  have hlen0 : (0 : ℕ) < ([0, 1] : List ℚ).length := by norm_num
  have hlen1 : (1 : ℕ) < ([0, 1] : List ℚ).length := by norm_num
  have hnum0 : emaNum [0, 1] 3 0 = 0 := by
    simp [emaNum, Finset.sum_range_one]
  have hden0 : emaDen 3 0 = 1 := by
    simp [emaDen, Finset.sum_range_one]
  have hnum1 : emaNum [0, 1] 3 1 = 1 := by
    rw [emaNum, Finset.sum_range_succ, Finset.sum_range_one]
    norm_num [emaAlpha]
  have hden1 : emaDen 3 1 = 3 / 2 := by
    rw [emaDen, Finset.sum_range_succ, Finset.sum_range_one]
    norm_num [emaAlpha]
  have he0 : ema [0, 1] 3 0 = some 0 := by
    simp only [ema]
    rw [if_pos hlen0, hnum0, hden0]
    norm_num
  have he1 : ema [0, 1] 3 1 = some (2 / 3) := by
    simp only [ema]
    rw [if_pos hlen1, hnum1, hden1]
    norm_num
  have ha : emaAlpha 3 * 1 + (1 - emaAlpha 3) * 0 = (1 / 2 : ℚ) := by
    norm_num [emaAlpha]
  refine ⟨he0, he1, ha, ?_⟩
  rw [he1, ha]
  intro hcontra
  have h23 := Option.some.inj hcontra
  norm_num at h23

/-- C5 (amended): `ema(S, p)` is the adjusted span-EMA of pandas: EMA[0] =
S[0], and for t ≥ 1 the weighted recursion EMA[t]·W[t] = S[t] +
(1-α)·W[t-1]·EMA[t-1] holds with W[t] = Σ i ≤ t, (1-α)^i and α = 2/(p+1);
the fixed-α recursion of the claim does not hold. -/
theorem c5_ema_adjusted_recursion (S : List ℚ) (p t : ℕ) (hp : 1 ≤ p) :
    (0 < S.length → ema S p 0 = some (S.getD 0 0)) ∧
      (1 ≤ t → t < S.length →
        ∃ e e', ema S p (t - 1) = some e' ∧ ema S p t = some e ∧
          e * emaDen p t = S.getD t 0 + (1 - emaAlpha p) * (emaDen p (t - 1) * e')) := by
  constructor
  · intro h0
    simp only [ema]
    rw [if_pos h0]
    congr 1
    show emaNum S p 0 / emaDen p 0 = S.getD 0 0
    rw [emaNum, emaDen, Finset.sum_range_one, Finset.sum_range_one, pow_zero, one_mul,
      Nat.sub_zero, div_one]
  · intro h1 h2
    obtain ⟨u, rfl⟩ : ∃ u, t = u + 1 := ⟨t - 1, by omega⟩
    have hu : u < S.length := by omega
    have hD1 : emaDen p (u + 1) ≠ 0 := ne_of_gt (emaDen_pos p hp (u + 1))
    have hDu : emaDen p u ≠ 0 := ne_of_gt (emaDen_pos p hp u)
    refine ⟨emaNum S p (u + 1) / emaDen p (u + 1), emaNum S p u / emaDen p u, ?_, ?_, ?_⟩
    · simp only [ema, Nat.add_sub_cancel]
      rw [if_pos hu]
    · simp only [ema]
      rw [if_pos h2]
    · rw [emaNum_succ]
      field_simp

/-- Witness for C5 on S = [1, 2], p = 2, t = 1. -/
theorem c5_ema_adjusted_recursion_witness :
    ema [(1 : ℚ), 2] 2 0 = some ([(1 : ℚ), 2].getD 0 0) ∧
      (∃ e e', ema [(1 : ℚ), 2] 2 0 = some e' ∧ ema [(1 : ℚ), 2] 2 1 = some e ∧
        e * emaDen 2 1 =
          [(1 : ℚ), 2].getD 1 0 + (1 - emaAlpha 2) * (emaDen 2 0 * e')) := by
  have h := c5_ema_adjusted_recursion [(1 : ℚ), 2] 2 1 (by decide)
  exact ⟨h.1 (by decide), h.2 (by decide) (by decide)⟩

/-- C6 counterexample: on Close = [1, 1, 0] with SMA periods (1, 2), at bar 2
the previous bar has shortMA = longMA = 1 (so shortMA ≥ longMA holds), the
current bar has shortMA = 0 < 1/2 = longMA, and the hour gate holds, yet the
Short signal is false — the code requires the previous bar's shortMA to be
strictly greater than the longMA, not ≥ as the claim states. -/
theorem c6_crossover_counterexample :
    sma [(1 : ℚ), 1, 0] 1 1 = some 1 ∧
      sma [(1 : ℚ), 1, 0] 2 1 = some 1 ∧
      (1 : ℚ) ≥ 1 ∧
      sma [(1 : ℚ), 1, 0] 1 2 = some 0 ∧
      sma [(1 : ℚ), 1, 0] 2 2 = some (1 / 2) ∧
      (0 : ℚ) < 1 / 2 ∧
      hourOk [0, 0, 0] 0 23 2 = true ∧
      maShortSignal (sma [(1 : ℚ), 1, 0] 1) (sma [(1 : ℚ), 1, 0] 2) [0, 0, 0] 0 23 2
        = false := by
  have e1 : sma [(1 : ℚ), 1, 0] 1 1 = some 1 := by
    norm_num [sma, rollingMean, windowO, listO, List.range_succ, List.filterMap_cons,
      List.sum_cons, List.sum_nil]
  have e2 : sma [(1 : ℚ), 1, 0] 2 1 = some 1 := by
    norm_num [sma, rollingMean, windowO, listO, List.range_succ, List.filterMap_cons,
      List.sum_cons, List.sum_nil]
  have e3 : sma [(1 : ℚ), 1, 0] 1 2 = some 0 := by
    norm_num [sma, rollingMean, windowO, listO, List.range_succ, List.filterMap_cons,
      List.sum_cons, List.sum_nil]
  have e4 : sma [(1 : ℚ), 1, 0] 2 2 = some (1 / 2) := by
    norm_num [sma, rollingMean, windowO, listO, List.range_succ, List.filterMap_cons,
      List.sum_cons, List.sum_nil]
  have hprev1 : prevO (sma [(1 : ℚ), 1, 0] 1) 2 = sma [(1 : ℚ), 1, 0] 1 1 := rfl
  have hprev2 : prevO (sma [(1 : ℚ), 1, 0] 2) 2 = sma [(1 : ℚ), 1, 0] 2 1 := rfl
  refine ⟨e1, e2, le_refl 1, e3, e4, by norm_num, by decide, ?_⟩
  simp only [maShortSignal, hprev1, hprev2, e1, e2, e3, e4, oLt, oGt]
  simp

/-- C6 (amended): at every bar t ≥ 1 with both MA series defined at t and
t-1, the 2-MA signals are exact crossover tests with strict inequalities on
both bars: ShortEnter ⟺ prev shortMA > longMA, current shortMA < longMA and
the hour in [start_hour, end_hour]; ShortExit ⟺ the reverse strict crossover
with no hour gate; LongEnter and LongExit symmetric with the inequalities
reversed. -/
theorem c6_crossover_strict (mas mal : ℕ → Option ℚ) (hour : List ℕ) (sh eh t : ℕ)
    (a b c d : ℚ) (ht : 1 ≤ t) (hpa : mas (t - 1) = some a) (hpb : mal (t - 1) = some b)
    (hc : mas t = some c) (hd : mal t = some d) :
    (maShortSignal mas mal hour sh eh t = true ↔
      b < a ∧ c < d ∧ sh ≤ hour.getD t 0 ∧ hour.getD t 0 ≤ eh) ∧
    (maShortExit mas mal t = true ↔ a < b ∧ d < c) ∧
    (maLongSignal mas mal hour sh eh t = true ↔
      a < b ∧ d < c ∧ sh ≤ hour.getD t 0 ∧ hour.getD t 0 ≤ eh) ∧
    (maLongExit mas mal t = true ↔ b < a ∧ c < d) := by
  obtain ⟨u, rfl⟩ : ∃ u, t = u + 1 := ⟨t - 1, by omega⟩
  rw [Nat.add_sub_cancel] at hpa hpb
  refine ⟨?_, ?_, ?_, ?_⟩ <;>
  · simp [maShortSignal, maShortExit, maLongSignal, maLongExit, prevO, hourOk, oLt, oGt,
      hpa, hpb, hc, hd]
    tauto

/-- Witness for C6 on Close = [4, 2, 1], SMA periods (1, 2), bar 2. -/
theorem c6_crossover_strict_witness :
    (maShortSignal (sma [(4 : ℚ), 2, 1] 1) (sma [(4 : ℚ), 2, 1] 2) [0, 0, 0] 0 23 2 = true ↔
      (3 : ℚ) < 2 ∧ (1 : ℚ) < 3 / 2 ∧ 0 ≤ [0, 0, 0].getD 2 0 ∧ [0, 0, 0].getD 2 0 ≤ 23) ∧
    (maShortExit (sma [(4 : ℚ), 2, 1] 1) (sma [(4 : ℚ), 2, 1] 2) 2 = true ↔
      (2 : ℚ) < 3 ∧ (3 : ℚ) / 2 < 1) ∧
    (maLongSignal (sma [(4 : ℚ), 2, 1] 1) (sma [(4 : ℚ), 2, 1] 2) [0, 0, 0] 0 23 2 = true ↔
      (2 : ℚ) < 3 ∧ (3 : ℚ) / 2 < 1 ∧ 0 ≤ [0, 0, 0].getD 2 0 ∧ [0, 0, 0].getD 2 0 ≤ 23) ∧
    (maLongExit (sma [(4 : ℚ), 2, 1] 1) (sma [(4 : ℚ), 2, 1] 2) 2 = true ↔
      (3 : ℚ) < 2 ∧ (1 : ℚ) < 3 / 2) :=
  c6_crossover_strict (sma [(4 : ℚ), 2, 1] 1) (sma [(4 : ℚ), 2, 1] 2) [0, 0, 0] 0 23 2
    2 3 1 (3 / 2) (by decide)
    (by norm_num [sma, rollingMean, windowO, listO, List.range_succ, List.filterMap_cons,
      List.sum_cons, List.sum_nil])
    (by norm_num [sma, rollingMean, windowO, listO, List.range_succ, List.filterMap_cons,
      List.sum_cons, List.sum_nil])
    (by norm_num [sma, rollingMean, windowO, listO, List.range_succ, List.filterMap_cons,
      List.sum_cons, List.sum_nil])
    (by norm_num [sma, rollingMean, windowO, listO, List.range_succ, List.filterMap_cons,
      List.sum_cons, List.sum_nil])

theorem calculate_ratios_monotone_error (mEq sEq : List (Option ℚ)) (hm : mEq ≠ [])
    (hdf : dropna sEq ≠ []) (hchain : List.Chain' (· ≤ ·) (dropna sEq)) :
    calculate_ratios mEq sEq = Except.error RatioError.argmaxEmpty := by
  obtain ⟨ml, hml⟩ := getLast?_of_ne_nil mEq hm
  have hs : sEq ≠ [] := by
    intro h
    rw [h] at hdf
    exact hdf rfl
  obtain ⟨sl, hsl⟩ := getLast?_of_ne_nil sEq hs
  have hend : argmaxQ (drawdownDiff (dropna sEq)) = 0 := by
    rw [drawdownDiff, maxAccum_of_chain _ hchain, zipWith_sub_self]
    exact argmaxQ_map_zero _
  simp only [calculate_ratios, hml, hsl]
  rw [if_neg hdf, hend, List.take_zero, if_pos rfl]

/-- C3 counterexample: on a flat strategy-equity curve (max drawdown 0) the
ratio computation fails, but with the argmax-of-empty-sequence ValueError
raised at the drawdown_start step — not with a DivisionByZero-class
(ArithmeticIndeterminate) condition at the RAR quotient, which is never
reached. -/
theorem c3_flat_equity_counterexample :
    calculate_ratios [some 1, some 1, some 1] [none, some 1, some 1, some 1] =
        Except.error RatioError.argmaxEmpty ∧
      (Except.error RatioError.argmaxEmpty : Except RatioError Ratios) ≠
        Except.error RatioError.divisionByZero := by
  constructor
  · apply calculate_ratios_monotone_error
    · simp
    · rw [show dropna [none, some (1 : ℚ), some 1, some 1] = [1, 1, 1] from rfl]
      simp
    · rw [show dropna [none, some (1 : ℚ), some 1, some 1] = [1, 1, 1] from rfl]
      norm_num [List.chain'_cons, List.chain'_singleton]
  · intro h
    exact RatioError.noConfusion (Except.error.inj h)

/-- C3 (amended): when the defined strategy-equity values are flat or
monotonically rising (the max_drawdown-0 case of the claim),
`calculate_ratios` fails before the RAR division: `drawdown_end` is 0, the
slice `df[:0]` is empty, and `np.argmax` raises the argmax-of-empty-sequence
condition; the caller receives that condition (not a DivisionByZero-class
one), and no infinity/NaN is silently returned. -/
theorem c3_flat_equity_error (mEq sEq : List (Option ℚ)) (hm : mEq ≠ [])
    (hdf : dropna sEq ≠ []) (hchain : List.Chain' (· ≤ ·) (dropna sEq)) :
    calculate_ratios mEq sEq = Except.error RatioError.argmaxEmpty :=
  calculate_ratios_monotone_error mEq sEq hm hdf hchain

/-- Witness for C3 on the two-bar flat curve. -/
theorem c3_flat_equity_error_witness :
    calculate_ratios [some (1 : ℚ)] [some (1 : ℚ), some 1] =
      Except.error RatioError.argmaxEmpty :=
  c3_flat_equity_error [some (1 : ℚ)] [some (1 : ℚ), some 1] (by simp)
    (by rw [show dropna [some (1 : ℚ), some 1] = [1, 1] from rfl]; simp)
    (by
      rw [show dropna [some (1 : ℚ), some 1] = [1, 1] from rfl]
      norm_num [List.chain'_cons, List.chain'_singleton])

/-- C4: whenever `calculate_ratios` returns a RatioSet, `drawdown_end` is a
positional index maximizing (running maximum of StrategyEquity minus
StrategyEquity), `drawdown_start` maximizes StrategyEquity over
[0, drawdown_end], max_drawdown = (S[drawdown_start] - S[drawdown_end])·100,
and drawdown_start ≤ drawdown_end and max_drawdown ≥ 0 always hold. -/
theorem c4_drawdown_spec (mEq sEq : List (Option ℚ)) (r : Ratios)
    (h : calculate_ratios mEq sEq = Except.ok r) :
    r.drawdown_end < (dropna sEq).length ∧
      (∀ j, j < (dropna sEq).length →
        (drawdownDiff (dropna sEq)).getD j 0 ≤
          (drawdownDiff (dropna sEq)).getD r.drawdown_end 0) ∧
      (∀ j, j ≤ r.drawdown_end →
        (dropna sEq).getD j 0 ≤ (dropna sEq).getD r.drawdown_start 0) ∧
      r.max_drawdown =
        ((dropna sEq).getD r.drawdown_start 0 - (dropna sEq).getD r.drawdown_end 0) * 100 ∧
      r.drawdown_start ≤ r.drawdown_end ∧
      0 ≤ r.max_drawdown := by
  cases hml : mEq.getLast? with
  | none =>
    simp only [calculate_ratios, hml] at h
    exact Except.noConfusion h
  | some ml =>
  cases hsl : sEq.getLast? with
  | none =>
    simp only [calculate_ratios, hml, hsl] at h
    exact Except.noConfusion h
  | some sl =>
  simp only [calculate_ratios, hml, hsl] at h
  by_cases hdfe : dropna sEq = []
  · rw [if_pos hdfe] at h
    exact Except.noConfusion h
  rw [if_neg hdfe] at h
  by_cases htk : (dropna sEq).take (argmaxQ (drawdownDiff (dropna sEq))) = []
  · rw [if_pos htk] at h
    exact Except.noConfusion h
  rw [if_neg htk] at h
  obtain rfl := Except.ok.inj h
  dsimp only
  have hdne : drawdownDiff (dropna sEq) ≠ [] := by
    intro hD
    apply hdfe
    have hlen := drawdownDiff_length (dropna sEq)
    rw [hD] at hlen
    simp only [List.length_nil] at hlen
    exact List.length_eq_zero.mp hlen.symm
  have hEdd : argmaxQ (drawdownDiff (dropna sEq)) < (drawdownDiff (dropna sEq)).length :=
    argmaxQ_lt_length _ hdne
  have hEdf : argmaxQ (drawdownDiff (dropna sEq)) < (dropna sEq).length := by
    rw [drawdownDiff_length] at hEdd
    exact hEdd
  have hend0 : argmaxQ (drawdownDiff (dropna sEq)) ≠ 0 := by
    intro h0
    apply htk
    rw [h0]
    simp
  have htklen : ((dropna sEq).take (argmaxQ (drawdownDiff (dropna sEq)))).length =
      argmaxQ (drawdownDiff (dropna sEq)) := by
    rw [List.length_take]
    exact min_eq_left (le_of_lt hEdf)
  have hstart_lt : argmaxQ ((dropna sEq).take (argmaxQ (drawdownDiff (dropna sEq)))) <
      argmaxQ (drawdownDiff (dropna sEq)) := by
    have h5 := argmaxQ_lt_length _ htk
    rw [htklen] at h5
    exact h5
  have h0diff : (drawdownDiff (dropna sEq)).getD 0 0 = 0 := by
    obtain ⟨x, xs, hxs⟩ : ∃ x xs, dropna sEq = x :: xs := by
      cases hcase : dropna sEq with
      | nil => exact absurd hcase hdfe
      | cons a as => exact ⟨a, as, rfl⟩
    rw [hxs]
    simp [drawdownDiff, maxAccum, List.zipWith]
  have hmaxpos :
      0 < (drawdownDiff (dropna sEq)).getD (argmaxQ (drawdownDiff (dropna sEq))) 0 := by
    obtain ⟨d0, rest, hdd⟩ : ∃ a as, drawdownDiff (dropna sEq) = a :: as := by
      cases hcase : drawdownDiff (dropna sEq) with
      | nil => exact absurd hcase hdne
      | cons a as => exact ⟨a, as, rfl⟩
    have hlt : d0 < maxQ (d0 :: rest) := by
      apply argmaxQ_head_lt
      rw [← hdd]
      exact hend0
    have hd0 : d0 = 0 := by
      have h7 := h0diff
      rw [hdd] at h7
      simpa using h7
    rw [hdd, getD_argmaxQ _ (by simp)]
    exact hd0 ▸ hlt
  have hend_lt : (dropna sEq).getD (argmaxQ (drawdownDiff (dropna sEq))) 0 <
      (maxAccum (dropna sEq)).getD (argmaxQ (drawdownDiff (dropna sEq))) 0 := by
    have hdg := drawdownDiff_getD (dropna sEq) _ hEdf
    rw [hdg] at hmaxpos
    linarith
  have hacc : (maxAccum (dropna sEq)).getD (argmaxQ (drawdownDiff (dropna sEq))) 0 =
      max (maxQ ((dropna sEq).take (argmaxQ (drawdownDiff (dropna sEq)))))
        ((dropna sEq).getD (argmaxQ (drawdownDiff (dropna sEq))) 0) := by
    rw [maxAccum_getD _ _ hEdf, maxQ_take_succ _ _ (by omega) hEdf]
  have hend_lt2 : (dropna sEq).getD (argmaxQ (drawdownDiff (dropna sEq))) 0 <
      maxQ ((dropna sEq).take (argmaxQ (drawdownDiff (dropna sEq)))) := by
    rw [hacc] at hend_lt
    rcases lt_max_iff.mp hend_lt with h6 | h6
    · exact h6
    · exact absurd h6 (lt_irrefl _)
  have hstval : (dropna sEq).getD
      (argmaxQ ((dropna sEq).take (argmaxQ (drawdownDiff (dropna sEq))))) 0 =
      maxQ ((dropna sEq).take (argmaxQ (drawdownDiff (dropna sEq)))) := by
    rw [← getD_take_of_lt (dropna sEq) _ _ hstart_lt]
    exact getD_argmaxQ _ htk
  refine ⟨hEdf, ?_, ?_, rfl, le_of_lt hstart_lt, ?_⟩
  · intro j hj
    have hjd : j < (drawdownDiff (dropna sEq)).length := by
      rw [drawdownDiff_length]
      exact hj
    rw [getD_argmaxQ _ hdne]
    exact le_maxQ _ j hjd
  · intro j hj
    rcases lt_or_eq_of_le hj with hjlt | hjeq
    · rw [hstval, ← getD_take_of_lt (dropna sEq) (argmaxQ (drawdownDiff (dropna sEq))) j hjlt]
      exact le_maxQ _ j (by rw [htklen]; exact hjlt)
    · rw [hjeq, hstval]
      exact le_of_lt hend_lt2
  · have h8 : 0 ≤ (dropna sEq).getD
        (argmaxQ ((dropna sEq).take (argmaxQ (drawdownDiff (dropna sEq))))) 0 -
        (dropna sEq).getD (argmaxQ (drawdownDiff (dropna sEq))) 0 := by
      rw [hstval]
      linarith
    have h9 : (0 : ℚ) ≤ 100 := by norm_num
    exact mul_nonneg h8 h9

/-- Witness for C4 on the curve [NaN, 1, 2, 3/2, 2]: drawdown_end = 2,
drawdown_start = 1, max_drawdown = 50. -/
theorem c4_drawdown_spec_witness :
    calculate_ratios [some (1 : ℚ)] [none, some (1 : ℚ), some 2, some (3 / 2), some 2] =
        Except.ok (Ratios.mk (some 0) (some 1) 50 1 1 2 (some 2)) ∧
      (1 : ℕ) ≤ 2 ∧ (0 : ℚ) ≤ 50 := by
  have hacc : maxAccum [(1 : ℚ), 2, 3 / 2, 2] = [1, 2, 2, 2] := by
    norm_num [maxAccum, maxAccumFrom, max_def]
  have hdd : drawdownDiff [(1 : ℚ), 2, 3 / 2, 2] = [0, 0, 1 / 2, 0] := by
    rw [show drawdownDiff [(1 : ℚ), 2, 3 / 2, 2] =
      List.zipWith (fun a b => a - b) (maxAccum [(1 : ℚ), 2, 3 / 2, 2])
        [(1 : ℚ), 2, 3 / 2, 2] from rfl, hacc]
    norm_num [List.zipWith]
  have hend : argmaxQ [(0 : ℚ), 0, 1 / 2, 0] = 2 := by
    norm_num [argmaxQ, maxQ, max_def]
  have hstart : argmaxQ [(1 : ℚ), 2] = 1 := by
    norm_num [argmaxQ, maxQ]
  have hok : calculate_ratios [some (1 : ℚ)] [none, some (1 : ℚ), some 2, some (3 / 2), some 2] =
      Except.ok (Ratios.mk (some 0) (some 1) 50 1 1 2 (some 2)) := by
    simp only [calculate_ratios,
      show ([some (1 : ℚ)] : List (Option ℚ)).getLast? = some (some 1) from rfl,
      show ([none, some (1 : ℚ), some 2, some (3 / 2), some 2] :
        List (Option ℚ)).getLast? = some (some 2) from rfl,
      show dropna [none, some (1 : ℚ), some 2, some (3 / 2), some 2] =
        [1, 2, 3 / 2, 2] from rfl, hdd, hend, hstart]
    norm_num [hstart, Ratios.mk.injEq]
    rw [if_neg (List.cons_ne_nil _ _), if_neg (List.cons_ne_nil _ _)]
  have h := c4_drawdown_spec _ _ _ hok
  exact ⟨hok, h.2.2.2.2.1, h.2.2.2.2.2⟩
